import Mathlib

/-!
Verification of the exact k-nearest-neighbour code of `matting/c`.

The sources are `tests.c` (the brute-force reference `naive_knn` and the
test harness) and `knn.c` (the batch driver over the kd-tree).  The
kd-tree itself (`kdtree.c`) is not among the sources; its query function
`kdtree_find_knn` is modelled from the spec.

C `float` values are modelled as exact rationals (every concrete value
used in a counterexample below is exactly representable as a `float`,
and every arithmetic operation on it is exact, so the modelled runs
agree bit-for-bit with the C runs).  The final `sqrt` applied by `knn.c`
is modelled as `Real.sqrt`.
-/

namespace Matting

/-- The initial "far away" distance `1e10f` that `naive_knn` writes into
every candidate slot (`tests.c`, line 38). -/
def big : ℚ := 10 ^ 10

/-- The initial content of a candidate slot of `naive_knn`: index `-1`,
distance `1e10f` (`tests.c`, lines 36-39). -/
def sentinel : ℤ × ℚ := (-1, big)

/-- Squared euclidean distance of two coordinate lists (`tests.c`,
lines 45-51): the sum of the squared coordinate differences. -/
def sqDist (p q : List ℚ) : ℚ :=
  ((p.zip q).map (fun v => (v.1 - v.2) * (v.1 - v.2))).sum

/-- The `j`-th point of a flat coordinate buffer of `dim`-dimensional
points (the C pointer `buf + j*point_dimension`). -/
def pointAt (dim : ℕ) (buf : List ℚ) (j : ℕ) : List ℚ :=
  (buf.drop (j * dim)).take dim

/-- Squared distance from the query point `p` to the `j`-th data point. -/
def distAt (dim : ℕ) (data p : List ℚ) (j : ℕ) : ℚ :=
  sqDist p (pointAt dim data j)

/-- The admission step of `naive_knn` (`tests.c`, lines 53-61): the
candidate is written behind the array and bubbles toward the front while
the predecessor's distance is strictly greater.  On a distance-sorted
list this places the candidate behind every entry whose distance is
`≤` its own, so a tie never displaces an older entry. -/
def insertCand (c : ℤ × ℚ) : List (ℤ × ℚ) → List (ℤ × ℚ)
  | [] => [c]
  | x :: xs => if x.2 ≤ c.2 then x :: insertCand c xs else c :: x :: xs

/-- Scan the data indices `j, j+1, …, j+rem-1`, admitting each candidate
`(j, ds j)` into the sorted candidate list and keeping the best `k`
(slot `k` of the C working array is overwritten by the next round). -/
def scanAux (k : ℕ) (ds : ℕ → ℚ) : ℕ → ℕ → List (ℤ × ℚ) → List (ℤ × ℚ)
  | _, 0, s => s
  | j, rem + 1, s => scanAux k ds (j + 1) rem ((insertCand ((j : ℤ), ds j) s).take k)

/-- One full query of `naive_knn` over `n` data points with distance
function `ds`: the scan starts from `k` sentinel slots
(`tests.c`, lines 36-62). -/
def runScan (k n : ℕ) (ds : ℕ → ℚ) : List (ℤ × ℚ) :=
  scanAux k ds 0 n (List.replicate k sentinel)

/-- The candidate slots `naive_knn` holds for one query point. -/
def naive_query (k dim n : ℕ) (data p : List ℚ) : List (ℤ × ℚ) :=
  runScan k n (distAt dim data p)

/-- The brute-force reference `naive_knn` of `tests.c`: for each of the
`m` query points it emits all `k` candidate slots verbatim - the indices
and the (squared, not square-rooted) distances (`tests.c`, lines 64-67). -/
def naive_knn (data query : List ℚ) (n m dim k : ℕ) : List ℤ × List ℚ :=
  (((List.range m).map fun i => (naive_query k dim n data (pointAt dim query i)).map Prod.fst).flatten,
   ((List.range m).map fun i => (naive_query k dim n data (pointAt dim query i)).map Prod.snd).flatten)

/-- Modelled from the spec: `kdtree_find_knn` of `kdtree.c`, which is not
among the sources.  Per the spec (§3, §4.2) the query maintains a bounded
candidate set of capacity `k` of `(index, squared_distance)` pairs, kept
sorted ascending by distance, admits candidates stably (an incoming
candidate whose distance equals an existing one never displaces it), and
its result is identical to the increasing-index brute-force scan, of
length `min k n`.  This is the same stable insertion step as `naive_knn`,
started from an empty candidate set instead of `1e10` sentinel slots. -/
def kdtree_find_knn (k n : ℕ) (ds : ℕ → ℚ) : List (ℤ × ℚ) :=
  scanAux k ds 0 n []

/-- The neighbours `kdtree_find_knn` reports for one query point of the
batch driver `knn` (`knn.c`, lines 31-35). -/
def knn_query (k dim n : ℕ) (data p : List ℚ) : List (ℤ × ℚ) :=
  kdtree_find_knn k n (distAt dim data p)

/-- The distances `knn` emits for one query point: the square root of
each reported squared distance (`knn.c`, line 39). -/
noncomputable def knnq_distances (k dim n : ℕ) (data p : List ℚ) : List ℝ :=
  (knn_query k dim n data p).map fun e => Real.sqrt (e.2 : ℝ)

/-- The flat neighbour-index output of the batch driver `knn`
(`knn.c`, line 38). -/
def knn_indices (data query : List ℚ) (n m dim k : ℕ) : List ℤ :=
  ((List.range m).map fun i => (knn_query k dim n data (pointAt dim query i)).map Prod.fst).flatten

/-- The flat neighbour-distance output of the batch driver `knn`
(`knn.c`, line 39). -/
noncomputable def knn_distances (data query : List ℚ) (n m dim k : ℕ) : List ℝ :=
  ((List.range m).map fun i => knnq_distances k dim n data (pointAt dim query i)).flatten

/-- Membership in the candidate list after an admission step. -/
theorem mem_insertCand {a c : ℤ × ℚ} {s : List (ℤ × ℚ)} :
    a ∈ insertCand c s ↔ a = c ∨ a ∈ s := by
  induction s with
  | nil => simp [insertCand]
  | cons x xs ih =>
    by_cases h : x.2 ≤ c.2 <;> simp [insertCand, h, ih] <;> tauto

/-- An admission step grows the candidate list by one entry. -/
theorem length_insertCand (c : ℤ × ℚ) (s : List (ℤ × ℚ)) :
    (insertCand c s).length = s.length + 1 := by
  induction s with
  | nil => rfl
  | cons x xs ih => by_cases h : x.2 ≤ c.2 <;> simp [insertCand, h, ih]

/-- An admission step permutes the candidate plus the old entries. -/
theorem perm_insertCand (c : ℤ × ℚ) (s : List (ℤ × ℚ)) :
    (insertCand c s).Perm (c :: s) := by
  induction s with
  | nil => simp [insertCand]
  | cons x xs ih =>
    by_cases h : x.2 ≤ c.2
    · simpa [insertCand, h] using (ih.cons x).trans (List.Perm.swap c x xs)
    · simp [insertCand, h]

/-- An admission step preserves any pairwise relation `R` of a sorted
candidate list, provided the candidate relates correctly to every old
entry on both sides of its insertion point. -/
theorem pairwise_insertCand {R : ℤ × ℚ → ℤ × ℚ → Prop} {c : ℤ × ℚ} {s : List (ℤ × ℚ)}
    (hR : s.Pairwise R) (hle : s.Pairwise (fun x y => x.2 ≤ y.2))
    (hc : ∀ x ∈ s, (x.2 ≤ c.2 → R x c) ∧ (c.2 < x.2 → R c x)) :
    (insertCand c s).Pairwise R := by
  induction s with
  | nil => simp [insertCand, hR]
  | cons x xs ih =>
    rcases List.pairwise_cons.mp hR with ⟨hxR, hR'⟩
    rcases List.pairwise_cons.mp hle with ⟨hxle, hle'⟩
    by_cases h : x.2 ≤ c.2
    · simp only [insertCand, if_pos h]
      refine List.pairwise_cons.mpr ⟨?_, ih hR' hle' ?_⟩
      · intro y hy
        rcases mem_insertCand.mp hy with rfl | hy'
        · exact (hc x (by simp)).1 h
        · exact hxR y hy'
      · intro y hy
        exact hc y (by simp [hy])
    · simp only [insertCand, if_neg h]
      refine List.pairwise_cons.mpr ⟨?_, hR⟩
      intro y hy
      rcases List.mem_cons.mp hy with rfl | hy'
      · exact (hc y (by simp)).2 (lt_of_not_le h)
      · exact (hc y (by simp [hy'])).2 (lt_of_lt_of_le (lt_of_not_le h) (hxle y hy'))

/-- An admission step keeps the candidate list sorted by distance. -/
theorem sorted_insertCand {c : ℤ × ℚ} {s : List (ℤ × ℚ)}
    (hs : s.Pairwise (fun x y => x.2 ≤ y.2)) :
    (insertCand c s).Pairwise (fun x y => x.2 ≤ y.2) :=
  pairwise_insertCand hs hs (fun x _ => ⟨fun h => h, fun h => le_of_lt h⟩)

/-- A candidate no closer than any current entry lands behind them all. -/
theorem insertCand_of_le {c : ℤ × ℚ} {s : List (ℤ × ℚ)}
    (h : ∀ x ∈ s, x.2 ≤ c.2) : insertCand c s = s ++ [c] := by
  induction s with
  | nil => rfl
  | cons x xs ih =>
    simp [insertCand, h x (by simp), ih (fun y hy => h y (by simp [hy]))]

/-- A candidate strictly closer than every entry of the tail `S` is
admitted in front of `S`. -/
theorem insertCand_append {c : ℤ × ℚ} {r S : List (ℤ × ℚ)}
    (hS : ∀ x ∈ S, ¬ x.2 ≤ c.2) : insertCand c (r ++ S) = insertCand c r ++ S := by
  induction r with
  | nil =>
    cases S with
    | nil => rfl
    | cons y ys => simp [insertCand, hS y (by simp)]
  | cons x xs ih => by_cases h : x.2 ≤ c.2 <;> simp [insertCand, h, ih]

/-- A list of equal entries is pairwise related whenever the relation is
reflexive at that entry. -/
theorem pairwise_replicate_of {α : Type*} {r : α → α → Prop} {a : α} (h : r a a) :
    ∀ n, (List.replicate n a).Pairwise r := by
  intro n
  induction n with
  | zero => simp
  | succ n ih =>
    rw [List.replicate_succ]
    exact List.pairwise_cons.mpr ⟨fun b hb => (List.eq_of_mem_replicate hb) ▸ h, ih⟩

/-- Squared distances are sums of squares, hence nonnegative. -/
theorem sqDist_nonneg (p q : List ℚ) : 0 ≤ sqDist p q := by
  refine List.sum_nonneg ?_
  intro x hx
  obtain ⟨v, _, rfl⟩ := List.mem_map.mp hx
  exact mul_self_nonneg _

/-- Invariant of the `naive_knn` candidate array after the data points
`0, …, j-1` have been processed: the array keeps exactly `k` slots,
sorted ascending by distance; every slot is either the untouched
sentinel `(-1, 1e10)` or a scanned data point closer than `1e10`;
entries of equal distance are ordered by data index; every scanned data
point not (or no longer) in the array is at least as far as every kept
entry. -/
structure ScanInv (k : ℕ) (ds : ℕ → ℚ) (j : ℕ) (s : List (ℤ × ℚ)) : Prop where
  len : s.length = k
  sorted : s.Pairwise (fun x y => x.2 ≤ y.2)
  mem : ∀ e ∈ s, e = sentinel ∨ ∃ i, i < j ∧ e = ((i : ℤ), ds i) ∧ ds i < big
  stable : s.Pairwise (fun x y => x.2 = y.2 → 0 ≤ x.1 → 0 ≤ y.1 → x.1 < y.1)
  dropped : ∀ i, i < j → (i : ℤ) ∉ s.map Prod.fst → ∀ e ∈ s, e.2 ≤ ds i

/-- The scan invariant holds before any data point is processed. -/
theorem scanInv_zero (k : ℕ) (ds : ℕ → ℚ) : ScanInv k ds 0 (List.replicate k sentinel) where
  len := by simp
  sorted := pairwise_replicate_of (by exact le_rfl) k
  mem := fun e he => Or.inl (List.eq_of_mem_replicate he)
  stable := pairwise_replicate_of (by intro _ h0; exact absurd h0 (by norm_num [sentinel])) k
  dropped := fun i hi => absurd hi (Nat.not_lt_zero i)

/-- Admitting the next data point preserves the scan invariant. -/
theorem scanInv_step {k j : ℕ} {ds : ℕ → ℚ} {s : List (ℤ × ℚ)} (h : ScanInv k ds j s) :
    ScanInv k ds (j + 1) ((insertCand ((j : ℤ), ds j) s).take k) := by
  set t : List (ℤ × ℚ) := insertCand ((j : ℤ), ds j) s with ht_def
  have ht_len : t.length = k + 1 := by rw [ht_def, length_insertCand, h.len]
  have ht_sorted : t.Pairwise (fun x y => x.2 ≤ y.2) := sorted_insertCand h.sorted
  have hc_not : ((j : ℤ), ds j) ∉ s := by
    intro hcs
    rcases h.mem _ hcs with heq | ⟨i, hi, heq, _⟩
    · have h1 : ((j : ℤ)) = -1 := by simpa [sentinel] using congrArg Prod.fst heq
      omega
    · have h1 : ((j : ℤ)) = (i : ℤ) := by simpa using congrArg Prod.fst heq
      have : j = i := by exact_mod_cast h1
      omega
  have hbound : ∀ x ∈ s, x.2 ≤ big := by
    intro x hx
    rcases h.mem x hx with rfl | ⟨i, _, rfl, hib⟩
    · simp [sentinel]
    · exact le_of_lt hib
  obtain ⟨md, hmd⟩ : ∃ md, t.drop k = [md] := by
    apply List.length_eq_one.mp
    rw [List.length_drop, ht_len]
    omega
  have hsplit : t.take k ++ [md] = t := by rw [← hmd]; exact List.take_append_drop k t
  have hmax : ∀ e ∈ t.take k, e.2 ≤ md.2 := by
    have hps := ht_sorted
    rw [← hsplit] at hps
    rcases List.pairwise_append.mp hps with ⟨_, _, hcross⟩
    intro e he
    exact hcross e he md (by simp)
  have hmd_mem : md ∈ t := by rw [← hsplit]; simp
  have ht_stable : t.Pairwise (fun x y => x.2 = y.2 → 0 ≤ x.1 → 0 ≤ y.1 → x.1 < y.1) := by
    apply pairwise_insertCand h.stable h.sorted
    intro x hx
    constructor
    · intro _ _ hx0 _
      rcases h.mem x hx with rfl | ⟨i, hi, rfl, _⟩
      · exact absurd hx0 (by norm_num [sentinel])
      · show (i : ℤ) < (j : ℤ)
        exact_mod_cast hi
    · intro hlt heq
      exact absurd heq (ne_of_lt hlt)
  refine ⟨?_, ?_, ?_, ?_, ?_⟩
  · rw [List.length_take, ht_len]
    omega
  · exact List.Pairwise.sublist (List.take_sublist _ _) ht_sorted
  · intro e he
    have het : e ∈ t := List.mem_of_mem_take he
    rcases mem_insertCand.mp het with rfl | hes
    · by_cases hb : ds j < big
      · exact Or.inr ⟨j, by omega, rfl, hb⟩
      · exfalso
        have hts : t = s ++ [((j : ℤ), ds j)] := by
          rw [ht_def]
          exact insertCand_of_le (fun x hx => le_trans (hbound x hx) (le_of_not_lt hb))
        have htk : t.take k = s := by
          rw [hts, ← h.len]
          exact List.take_left s _
        rw [htk] at he
        exact hc_not he
    · rcases h.mem e hes with heq | ⟨i, hi, heq, hib⟩
      · exact Or.inl heq
      · exact Or.inr ⟨i, by omega, heq, hib⟩
  · exact List.Pairwise.sublist (List.take_sublist _ _) ht_stable
  · intro i hi hnot e he
    have het : e ∈ t := List.mem_of_mem_take he
    by_cases hij : i = j
    · subst hij
      have hct : ((i : ℤ), ds i) ∈ t := mem_insertCand.mpr (Or.inl rfl)
      rw [← hsplit] at hct
      rcases List.mem_append.mp hct with hc1 | hc2
      · exact absurd (List.mem_map.mpr ⟨_, hc1, rfl⟩) hnot
      · have hmd_eq : md = ((i : ℤ), ds i) := (List.mem_singleton.mp hc2).symm
        have := hmax e he
        rw [hmd_eq] at this
        exact this
    · have hij' : i < j := by omega
      by_cases hmem : (i : ℤ) ∈ s.map Prod.fst
      · obtain ⟨x, hxs, hx1⟩ := List.mem_map.mp hmem
        have hx_eq : x = ((i : ℤ), ds i) := by
          rcases h.mem x hxs with rfl | ⟨i', _, rfl, _⟩
          · exfalso
            have : (-1 : ℤ) = (i : ℤ) := by simpa [sentinel] using hx1
            omega
          · have h1 : (i' : ℤ) = (i : ℤ) := by simpa using hx1
            have : i' = i := by exact_mod_cast h1
            rw [this]
        have hxt : x ∈ t := mem_insertCand.mpr (Or.inr hxs)
        rw [← hsplit] at hxt
        rcases List.mem_append.mp hxt with hx3 | hx4
        · exact absurd (List.mem_map.mpr ⟨x, hx3, hx1⟩) hnot
        · have hmd_eq : md = ((i : ℤ), ds i) := by
            rw [← hx_eq]
            exact (List.mem_singleton.mp hx4).symm
          have := hmax e he
          rw [hmd_eq] at this
          exact this
      · have hD := h.dropped i hij' hmem
        rcases mem_insertCand.mp het with rfl | hes
        · rcases mem_insertCand.mp hmd_mem with hmd_c | hmd_s
          · exfalso
            have hp1 : t.Perm (((j : ℤ), ds j) :: s) := by
              rw [ht_def]
              exact perm_insertCand _ s
            have hp2 : t.Perm (((j : ℤ), ds j) :: t.take k) := by
              conv_lhs => rw [← hsplit]
              rw [hmd_c]
              exact List.perm_append_singleton _ _
            have hp3 : s.Perm (t.take k) := (hp1.symm.trans hp2).cons_inv
            exact hc_not (hp3.symm.subset he)
          · exact le_trans (hmax _ he) (hD md hmd_s)
        · exact hD e hes

/-- Scanning any number of further data points preserves the invariant. -/
theorem scanAux_inv {k : ℕ} {ds : ℕ → ℚ} :
    ∀ (rem j : ℕ) (s : List (ℤ × ℚ)), ScanInv k ds j s →
      ScanInv k ds (j + rem) (scanAux k ds j rem s) := by
  intro rem
  induction rem with
  | zero => intro j s h; simpa [scanAux] using h
  | succ rem ih =>
    intro j s h
    have hstep := ih (j + 1) _ (scanInv_step h)
    have harith : j + 1 + rem = j + (rem + 1) := by omega
    rw [harith] at hstep
    simpa [scanAux] using hstep

/-- The invariant after the full `naive_knn` scan of `n` data points. -/
theorem scanInv_run (k n : ℕ) (ds : ℕ → ℚ) : ScanInv k ds n (runScan k n ds) := by
  have := scanAux_inv n 0 _ (scanInv_zero k ds)
  simpa [runScan] using this

/-- Invariant of the modelled kd-tree candidate set after `j` of the
data points have been examined: `min j k` entries, sorted ascending by
distance, each one a scanned data point. -/
structure KdInv (k : ℕ) (ds : ℕ → ℚ) (j : ℕ) (s : List (ℤ × ℚ)) : Prop where
  len : s.length = min j k
  sorted : s.Pairwise (fun x y => x.2 ≤ y.2)
  mem : ∀ e ∈ s, ∃ i, i < j ∧ e = ((i : ℤ), ds i)

/-- Admitting the next data point preserves the kd-tree invariant. -/
theorem kdInv_step {k j : ℕ} {ds : ℕ → ℚ} {s : List (ℤ × ℚ)} (h : KdInv k ds j s) :
    KdInv k ds (j + 1) ((insertCand ((j : ℤ), ds j) s).take k) where
  len := by
    rw [List.length_take, length_insertCand, h.len]
    omega
  sorted := List.Pairwise.sublist (List.take_sublist _ _) (sorted_insertCand h.sorted)
  mem := by
    intro e he
    rcases mem_insertCand.mp (List.mem_of_mem_take he) with rfl | hes
    · exact ⟨j, by omega, rfl⟩
    · obtain ⟨i, hi, heq⟩ := h.mem e hes
      exact ⟨i, by omega, heq⟩

/-- Scanning any number of further data points preserves the kd-tree
invariant. -/
theorem kdAux_inv {k : ℕ} {ds : ℕ → ℚ} :
    ∀ (rem j : ℕ) (s : List (ℤ × ℚ)), KdInv k ds j s →
      KdInv k ds (j + rem) (scanAux k ds j rem s) := by
  intro rem
  induction rem with
  | zero => intro j s h; simpa [scanAux] using h
  | succ rem ih =>
    intro j s h
    have hstep := ih (j + 1) _ (kdInv_step h)
    have harith : j + 1 + rem = j + (rem + 1) := by omega
    rw [harith] at hstep
    simpa [scanAux] using hstep

/-- The kd-tree invariant after scanning all `n` data points. -/
theorem kdInv_run (k n : ℕ) (ds : ℕ → ℚ) : KdInv k ds n (kdtree_find_knn k n ds) := by
  have h0 : KdInv k ds 0 [] := ⟨by simp, by simp, by simp⟩
  have := kdAux_inv n 0 [] h0
  simpa [kdtree_find_knn] using this

/-- When fewer data points than slots are scanned and every distance is
below `1e10`, the candidate array stays split: the scanned points in
front, the untouched sentinel slots behind. -/
theorem scanAux_pad {k n : ℕ} {ds : ℕ → ℚ} (hnk : n < k) (hsm : ∀ i, i < n → ds i < big) :
    ∀ (rem j : ℕ) (r : List (ℤ × ℚ)), j + rem ≤ n → r.length = j →
      (∀ i, i < j → (i : ℤ) ∈ r.map Prod.fst) →
      ∃ R : List (ℤ × ℚ),
        scanAux k ds j rem (r ++ List.replicate (k - j) sentinel)
          = R ++ List.replicate (k - (j + rem)) sentinel ∧
        R.length = j + rem ∧ (∀ i, i < j + rem → (i : ℤ) ∈ R.map Prod.fst) := by
  intro rem
  induction rem with
  | zero =>
    intro j r hjn hlen hmem
    exact ⟨r, by simp [scanAux], by omega, fun i hi => hmem i (by omega)⟩
  | succ rem ih =>
    intro j r hjn hlen hmem
    have hjn' : j < n := by omega
    have hins : insertCand ((j : ℤ), ds j) (r ++ List.replicate (k - j) sentinel)
        = insertCand ((j : ℤ), ds j) r ++ List.replicate (k - j) sentinel := by
      apply insertCand_append
      intro x hx
      rw [List.eq_of_mem_replicate hx]
      show ¬ (big ≤ ds j)
      exact not_le.mpr (hsm j hjn')
    have hlen' : (insertCand ((j : ℤ), ds j) r).length = j + 1 := by
      rw [length_insertCand, hlen]
    have htake : (insertCand ((j : ℤ), ds j) r ++ List.replicate (k - j) sentinel).take k
        = insertCand ((j : ℤ), ds j) r ++ List.replicate (k - (j + 1)) sentinel := by
      rw [List.take_append_eq_append_take, List.take_of_length_le (by omega), hlen',
        List.take_replicate]
      congr 1
      congr 1
      omega
    have hmem' : ∀ i, i < j + 1 → (i : ℤ) ∈ (insertCand ((j : ℤ), ds j) r).map Prod.fst := by
      intro i hi
      by_cases hij : i = j
      · subst hij
        exact List.mem_map.mpr ⟨_, mem_insertCand.mpr (Or.inl rfl), rfl⟩
      · obtain ⟨x, hx, hx1⟩ := List.mem_map.mp (hmem i (by omega))
        exact List.mem_map.mpr ⟨x, mem_insertCand.mpr (Or.inr hx), hx1⟩
    obtain ⟨R, hR, hRlen, hRmem⟩ := ih (j + 1) (insertCand ((j : ℤ), ds j) r)
      (by omega) hlen' hmem'
    refine ⟨R, ?_, by omega, fun i hi => hRmem i (by omega)⟩
    have harith : k - (j + 1 + rem) = k - (j + (rem + 1)) := by omega
    calc scanAux k ds j (rem + 1) (r ++ List.replicate (k - j) sentinel)
        = scanAux k ds (j + 1) rem
            ((insertCand ((j : ℤ), ds j) (r ++ List.replicate (k - j) sentinel)).take k) := by
          simp [scanAux]
      _ = scanAux k ds (j + 1) rem
            (insertCand ((j : ℤ), ds j) r ++ List.replicate (k - (j + 1)) sentinel) := by
          rw [hins, htake]
      _ = R ++ List.replicate (k - (j + (rem + 1))) sentinel := by
          rw [hR, harith]

/-- Length of a flat batch output whose per-query blocks all have the
same length. -/
theorem length_flatten_const {α : Type*} {m c : ℕ} {f : ℕ → List α}
    (h : ∀ i ∈ List.range m, (f i).length = c) :
    (((List.range m).map f).flatten).length = m * c := by
  rw [List.length_flatten, List.map_map]
  have h1 : (List.range m).map (List.length ∘ f) = (List.range m).map (Function.const ℕ c) :=
    List.map_congr_left (fun a ha => h a ha)
  rw [h1, List.map_const, List.length_range, List.sum_replicate, smul_eq_mul]

/-- C4: tie-breaking is stable.  A candidate whose distance equals one
already in the candidate set never displaces it, so among the returned
neighbours of one query two entries of equal distance always appear in
increasing data-index order (the lower original data index first).  This
holds for arbitrary data sets, in particular for duplicate points. -/
theorem C4_stable_ties (k dim n : ℕ) (data p : List ℚ) :
    (naive_query k dim n data p).Pairwise
      (fun x y => x.2 = y.2 → 0 ≤ x.1 → 0 ≤ y.1 → x.1 < y.1) :=
  (scanInv_run k n (distAt dim data p)).stable

/-- C6: for each single query point the returned distance sequence is
non-decreasing - for the brute-force `naive_knn` and for the kd-tree
backed `knn`, whose emitted distances are the square roots of the sorted
squared distances. -/
theorem C6_sorted_distances (k dim n : ℕ) (data p : List ℚ) :
    ((naive_query k dim n data p).map Prod.snd).Pairwise (· ≤ ·) ∧
    (knnq_distances k dim n data p).Pairwise (· ≤ ·) := by
  constructor
  · exact List.pairwise_map.mpr (scanInv_run k n (distAt dim data p)).sorted
  · exact List.pairwise_map.mpr
      ((kdInv_run k n (distAt dim data p)).sorted.imp
        (fun h => Real.sqrt_le_sqrt (by exact_mod_cast h)))

/-- C7 (amended): the modelled kd-tree query returns only indices in
`[0, n)` and nonnegative distances; the brute-force `naive_knn` returns
nonnegative distances and indices that are either in `[0, n)` or the
`-1` sentinel. -/
theorem C7_amended_ranges (k dim n : ℕ) (data p : List ℚ) :
    (∀ e ∈ knn_query k dim n data p, 0 ≤ e.1 ∧ e.1 < (n : ℤ)) ∧
    (∀ x ∈ knnq_distances k dim n data p, 0 ≤ x) ∧
    (∀ e ∈ naive_query k dim n data p,
      (e.1 = -1 ∨ (0 ≤ e.1 ∧ e.1 < (n : ℤ))) ∧ 0 ≤ e.2) := by
  refine ⟨?_, ?_, ?_⟩
  · intro e he
    obtain ⟨i, hi, rfl⟩ := (kdInv_run k n (distAt dim data p)).mem e he
    refine ⟨Int.natCast_nonneg i, ?_⟩
    show (i : ℤ) < (n : ℤ)
    exact_mod_cast hi
  · intro x hx
    obtain ⟨e, _, rfl⟩ := List.mem_map.mp hx
    exact Real.sqrt_nonneg _
  · intro e he
    rcases (scanInv_run k n (distAt dim data p)).mem e he with rfl | ⟨i, hi, rfl, _⟩
    · exact ⟨Or.inl rfl, by norm_num [sentinel, big]⟩
    · refine ⟨Or.inr ⟨Int.natCast_nonneg i, ?_⟩, sqDist_nonneg _ _⟩
      show (i : ℤ) < (n : ℤ)
      exact_mod_cast hi

/-- C7 witness: for the data point `(2)` and query `(3)` the kd-tree
query returns index `0` with `0 ≤ 0 < 1`. -/
theorem C7_amended_ranges_witness :
    0 ≤ ((0 : ℤ), (1 : ℚ)).1 ∧ ((0 : ℤ), (1 : ℚ)).1 < ((1 : ℕ) : ℤ) :=
  (C7_amended_ranges 1 1 1 [2] [3]).1 ((0 : ℤ), (1 : ℚ))
    (by norm_num [knn_query, kdtree_find_knn, scanAux, insertCand, distAt, sqDist, pointAt])

/-- C7 counterexample: with one data point at the origin, query `(1)`
and `k = 2`, `naive_knn` returns the sentinel index `-1`, which is not a
data index in `[0, n)`, refuting the claim as stated for `naive_knn`. -/
theorem C7_counterexample :
    ¬ (∀ e ∈ naive_query 2 1 1 [0] [1], 0 ≤ e.1 ∧ e.1 < (1 : ℤ)) := by
  intro hall
  have h1 : ((-1 : ℤ), big) ∈ naive_query 2 1 1 [0] [1] := by
    norm_num [naive_query, runScan, scanAux, insertCand, distAt, sqDist, pointAt, sentinel, big]
  have h2 := (hall _ h1).1
  norm_num at h2

/-- C3 (amended): per query the kd-tree backed `knn` writes `min(k, n)`
index and distance entries, so `m·min(k, n)` in total; `naive_knn`
always writes exactly `k` entries per query (`m·k` in total), padding
with sentinel entries when `k > n`. -/
theorem C3_amended_lengths (data query : List ℚ) (n m dim k : ℕ) :
    (naive_knn data query n m dim k).1.length = m * k ∧
    (naive_knn data query n m dim k).2.length = m * k ∧
    (knn_indices data query n m dim k).length = m * min k n ∧
    (knn_distances data query n m dim k).length = m * min k n := by
  refine ⟨?_, ?_, ?_, ?_⟩
  · exact length_flatten_const (fun i _ => by
      rw [List.length_map]
      exact (scanInv_run k n (distAt dim data (pointAt dim query i))).len)
  · exact length_flatten_const (fun i _ => by
      rw [List.length_map]
      exact (scanInv_run k n (distAt dim data (pointAt dim query i))).len)
  · exact length_flatten_const (fun i _ => by
      rw [List.length_map]
      show (kdtree_find_knn k n (distAt dim data (pointAt dim query i))).length = min k n
      rw [(kdInv_run k n (distAt dim data (pointAt dim query i))).len]
      exact Nat.min_comm n k)
  · exact length_flatten_const (fun i _ => by
      rw [knnq_distances, List.length_map]
      show (kdtree_find_knn k n (distAt dim data (pointAt dim query i))).length = min k n
      rw [(kdInv_run k n (distAt dim data (pointAt dim query i))).len]
      exact Nat.min_comm n k)

/-- C3 counterexample: `n = 0` data points, one query, `k = 1`:
`naive_knn` still writes one (sentinel) entry, not `min(k, n) = 0`
entries, refuting the claimed cardinality for `naive_knn`. -/
theorem C3_counterexample :
    (naive_knn [] [0] 0 1 1 1).1.length ≠ 1 * min 1 0 := by
  norm_num [naive_knn, naive_query, runScan, scanAux, pointAt, sentinel]

/-- C2 (amended): if `k ≤ n` and every data point lies strictly closer
than `1e10` (squared), then `naive_knn`'s scan returns exactly the `k`
nearest data points: `k` entries, each a data point, with pairwise
distinct indices, and every kept entry at least as close as every data
point left out. -/
theorem C2_amended_exact_knn (k dim n : ℕ) (data p : List ℚ)
    (hkn : k ≤ n) (hsm : ∀ j, j < n → distAt dim data p j < big) :
    (naive_query k dim n data p).length = k ∧
    (∀ e ∈ naive_query k dim n data p, ∃ j, j < n ∧ e = ((j : ℤ), distAt dim data p j)) ∧
    ((naive_query k dim n data p).map Prod.fst).Nodup ∧
    (∀ e ∈ naive_query k dim n data p, ∀ j, j < n →
      (j : ℤ) ∉ (naive_query k dim n data p).map Prod.fst → e.2 ≤ distAt dim data p j) := by
  have I : ScanInv k (distAt dim data p) n (naive_query k dim n data p) :=
    scanInv_run k n (distAt dim data p)
  have hreal : ∀ e ∈ naive_query k dim n data p,
      ∃ j, j < n ∧ e = ((j : ℤ), distAt dim data p j) := by
    intro e he
    rcases I.mem e he with rfl | ⟨i, hi, heq, _⟩
    · exfalso
      by_cases hall : ∀ i, i < n → (i : ℤ) ∈ (naive_query k dim n data p).map Prod.fst
      · have hnotmem : (-1 : ℤ) ∉ (Finset.range n).image (fun i : ℕ => (i : ℤ)) := by
          intro hmem1
          obtain ⟨i, _, hi3⟩ := Finset.mem_image.mp hmem1
          omega
        have hsub : insert (-1 : ℤ) ((Finset.range n).image (fun i : ℕ => (i : ℤ)))
            ⊆ ((naive_query k dim n data p).map Prod.fst).toFinset := by
          intro a ha
          rcases Finset.mem_insert.mp ha with rfl | hb
          · exact List.mem_toFinset.mpr (List.mem_map.mpr ⟨sentinel, he, rfl⟩)
          · obtain ⟨i, hi2, rfl⟩ := Finset.mem_image.mp hb
            exact List.mem_toFinset.mpr (hall i (Finset.mem_range.mp hi2))
        have hcard1 : (insert (-1 : ℤ) ((Finset.range n).image (fun i : ℕ => (i : ℤ)))).card
            = n + 1 := by
          rw [Finset.card_insert_of_not_mem hnotmem,
            Finset.card_image_of_injective _ (fun a b hab => by exact_mod_cast hab),
            Finset.card_range]
        have hcard2 := Finset.card_le_card hsub
        have hcard3 := List.toFinset_card_le ((naive_query k dim n data p).map Prod.fst)
        rw [List.length_map, I.len] at hcard3
        omega
      · push_neg at hall
        obtain ⟨i, hi, hni⟩ := hall
        have h1 := I.dropped i hi hni sentinel he
        have h2 := hsm i hi
        have h3 : big ≤ distAt dim data p i := by simpa [sentinel] using h1
        exact absurd (lt_of_le_of_lt h3 h2) (lt_irrefl _)
    · exact ⟨i, hi, heq⟩
  have hpw : (naive_query k dim n data p).Pairwise (fun x y => x.1 ≠ y.1) := by
    refine List.Pairwise.imp_of_mem ?_ I.stable
    intro a b ha hb hR heq
    obtain ⟨ja, hja, rfl⟩ := hreal a ha
    obtain ⟨jb, hjb, rfl⟩ := hreal b hb
    have hj' : ja = jb := by
      have : (ja : ℤ) = (jb : ℤ) := by simpa using heq
      exact_mod_cast this
    subst hj'
    exact lt_irrefl _ (hR rfl (Int.natCast_nonneg ja) (Int.natCast_nonneg ja))
  exact ⟨I.len, hreal, List.pairwise_map.mpr hpw,
    fun e he j hj hnj => I.dropped j hj hnj e he⟩

/-- C2 witness: two data points `(0)`, `(7)`, query `(0)`, `k = 1`:
the hypotheses hold and the scan returns exactly one entry. -/
theorem C2_amended_exact_knn_witness :
    (naive_query 1 1 2 [0, 7] [0]).length = 1 :=
  (C2_amended_exact_knn 1 1 2 [0, 7] [0] (by norm_num)
    (by
      intro j hj
      interval_cases j
      · norm_num [distAt, sqDist, pointAt, big]
      · norm_num [distAt, sqDist, pointAt, big])).1

/-- C2 counterexample: one data point at the origin, query `(200000)`
(exact squared float distance `4·10^10 ≥ 1e10`), `k = n = 1`: the scan
returns the sentinel `(-1, 1e10)` instead of the sole data point, so the
claim as stated (for every data set) fails. -/
theorem C2_counterexample :
    ¬ (∀ e ∈ naive_query 1 1 1 [0] [200000],
        ∃ j : ℕ, j < 1 ∧ e = ((j : ℤ), distAt 1 [0] [200000] j)) := by
  intro hall
  have h1 : ((-1 : ℤ), big) ∈ naive_query 1 1 1 [0] [200000] := by
    norm_num [naive_query, runScan, scanAux, insertCand, distAt, sqDist, pointAt, sentinel, big]
  obtain ⟨j, hj, heq⟩ := hall _ h1
  have hj0 : j = 0 := by omega
  subst hj0
  have h2 : (-1 : ℤ) = ((0 : ℕ) : ℤ) := congrArg Prod.fst heq
  norm_num at h2

/-- C9: when `k > n` and every real squared distance lies below `1e10`,
`naive_knn` emits exactly `k` entries for the query: the `n` data points
first, then `k - n` untouched sentinel entries `(-1, 1e10)`, and these
sentinel entries are part of the emitted output. -/
theorem C9_sentinel_padding (k dim n : ℕ) (data p : List ℚ)
    (hnk : n < k) (hsm : ∀ j, j < n → distAt dim data p j < big) :
    (naive_query k dim n data p).length = k ∧
    (naive_query k dim n data p).drop n = List.replicate (k - n) sentinel ∧
    (∀ i, i < n → (i : ℤ) ∈ ((naive_query k dim n data p).take n).map Prod.fst) := by
  obtain ⟨R, hR, hRlen, hRmem⟩ := scanAux_pad hnk hsm n 0 []
    (by omega) rfl (fun i hi => absurd hi (Nat.not_lt_zero i))
  have hrun : naive_query k dim n data p = R ++ List.replicate (k - n) sentinel := by
    have h0 : naive_query k dim n data p
        = scanAux k (distAt dim data p) 0 n ([] ++ List.replicate (k - 0) sentinel) := by
      simp [naive_query, runScan]
    rw [h0, hR]
    norm_num
  have hRn : R.length = n := by omega
  refine ⟨(scanInv_run k n (distAt dim data p)).len, ?_, ?_⟩
  · rw [hrun, ← hRn, List.drop_left]
  · intro i hi
    have hT : (R ++ List.replicate (k - n) sentinel).take n = R := by
      rw [List.take_append_eq_append_take, List.take_of_length_le (by omega)]
      have h1 : n - R.length = 0 := by omega
      rw [h1]
      simp
    rw [hrun, hT]
    exact hRmem i (by omega)

/-- C9 witness: one data point `(0)`, query `(1)`, `k = 2`: the single
trailing slot is the sentinel `(-1, 1e10)`. -/
theorem C9_sentinel_padding_witness :
    (naive_query 2 1 1 [0] [1]).drop 1 = List.replicate 1 sentinel :=
  (C9_sentinel_padding 2 1 1 [0] [1] (by norm_num)
    (by
      intro j hj
      have hj0 : j = 0 := by omega
      subst hj0
      norm_num [distAt, sqDist, pointAt, big])).2.1

/-- C10: a data point whose squared distance to the query is `≥ 1e10` is
never admitted to the candidate set: its index is never returned, and
every returned entry is either an untouched sentinel `(-1, 1e10)` - the
entry returned in its place - or a data point strictly closer than
`1e10`. -/
theorem C10_far_points_never_admitted (k dim n : ℕ) (data p : List ℚ) :
    (∀ j, j < n → big ≤ distAt dim data p j →
      (j : ℤ) ∉ (naive_query k dim n data p).map Prod.fst) ∧
    (∀ e ∈ naive_query k dim n data p, e = sentinel ∨ e.2 < big) := by
  have I : ScanInv k (distAt dim data p) n (naive_query k dim n data p) :=
    scanInv_run k n (distAt dim data p)
  constructor
  · intro j hj hbig hmem
    obtain ⟨x, hx, hx1⟩ := List.mem_map.mp hmem
    rcases I.mem x hx with rfl | ⟨i, _, rfl, hib⟩
    · have h1 : (-1 : ℤ) = (j : ℤ) := by simpa [sentinel] using hx1
      omega
    · have h1 : (i : ℤ) = (j : ℤ) := by simpa using hx1
      have h2 : i = j := by exact_mod_cast h1
      subst h2
      exact absurd hbig (not_le.mpr hib)
  · intro e he
    rcases I.mem e he with rfl | ⟨i, _, rfl, hib⟩
    · exact Or.inl rfl
    · exact Or.inr hib

/-- C10 witness: one data point `(0)`, query `(300000)` (squared
distance `9·10^10 ≥ 1e10`): index `0` is not returned. -/
theorem C10_far_points_never_admitted_witness :
    ((0 : ℕ) : ℤ) ∉ (naive_query 1 1 1 [0] [300000]).map Prod.fst :=
  (C10_far_points_never_admitted 1 1 1 [0] [300000]).1 0 (by norm_num)
    (by norm_num [distAt, sqDist, pointAt, big])

/-- C1: the claimed entry-for-entry equality of `knn` and `naive_knn`
fails on the distances.  `knn.c` (line 39) square-roots each squared
distance before emitting it, while `naive_knn` (`tests.c`, lines 64-67)
emits the squared distance raw: for the single data point `(0)` and
query `(2)` the emitted distance lists are `[4]` and `[2]`, so the
equality asserted by `test_knn` (`tests.c`, lines 112-115) fails. -/
theorem C1_distance_outputs_differ :
    (naive_knn [0] [2] 1 1 1 1).2 = [(4 : ℚ)] ∧
    knn_distances [0] [2] 1 1 1 1 = [(2 : ℝ)] ∧
    (naive_knn [0] [2] 1 1 1 1).2.map (fun q => (q : ℝ)) ≠ knn_distances [0] [2] 1 1 1 1 := by
  have h1 : (naive_knn [0] [2] 1 1 1 1).2 = [(4 : ℚ)] := by
    norm_num [naive_knn, naive_query, runScan, scanAux, insertCand, distAt, sqDist, pointAt,
      sentinel, big, List.range_succ]
  have hq : knn_query 1 1 1 [0] [2] = [((0 : ℤ), (4 : ℚ))] := by
    norm_num [knn_query, kdtree_find_knn, scanAux, insertCand, distAt, sqDist, pointAt]
  have hs : Real.sqrt (4 : ℝ) = 2 := by
    rw [show (4 : ℝ) = (2 : ℝ) ^ 2 by norm_num]
    exact Real.sqrt_sq (by norm_num)
  have h2 : knn_distances [0] [2] 1 1 1 1 = [(2 : ℝ)] := by
    norm_num [knn_distances, knnq_distances, List.range_succ, pointAt, hq, hs]
  refine ⟨h1, h2, ?_⟩
  rw [h1, h2]
  norm_num

/-- C5: `knn` does emit the square root of the internal squared distance
(`knn.c`, line 39), but `naive_knn` does not: with data point `(0)` and
query `(3)` the internal squared distance is `9`; `naive_knn` emits `9`
itself, which is not `sqrt 9 = 3`, the value `knn` emits. -/
theorem C5_naive_emits_squared_distance :
    (naive_knn [0] [3] 1 1 1 1).2 = [(9 : ℚ)] ∧
    distAt 1 [0] [3] 0 = 9 ∧
    knn_distances [0] [3] 1 1 1 1 = [(3 : ℝ)] ∧
    ((9 : ℚ) : ℝ) ≠ Real.sqrt ((9 : ℚ) : ℝ) := by
  have hs : Real.sqrt (9 : ℝ) = 3 := by
    rw [show (9 : ℝ) = (3 : ℝ) ^ 2 by norm_num]
    exact Real.sqrt_sq (by norm_num)
  have hq : knn_query 1 1 1 [0] [3] = [((0 : ℤ), (9 : ℚ))] := by
    norm_num [knn_query, kdtree_find_knn, scanAux, insertCand, distAt, sqDist, pointAt]
  refine ⟨?_, ?_, ?_, ?_⟩
  · norm_num [naive_knn, naive_query, runScan, scanAux, insertCand, distAt, sqDist, pointAt,
      sentinel, big, List.range_succ]
  · norm_num [distAt, sqDist, pointAt]
  · norm_num [knn_distances, knnq_distances, List.range_succ, pointAt, hq, hs]
  · have hc : ((9 : ℚ) : ℝ) = (9 : ℝ) := by norm_num
    rw [hc, hs]
    norm_num

end Matting
